import Mathlib

/-!
Verification of the heapmaster HPROF decoder and heap-graph analytics engine.

The Go sources are shallowly embedded: Go maps become association lists
(`mapGet` returns the first binding, which coincides with map lookup because Go
map keys are unique), `int32`/`int64` values become `Int` with explicit wrapping
(`wrap32`) where Go arithmetic can overflow, identifiers (`type ID int64`)
become `Int` obtained by two's-complement conversion from big-endian bytes, and
byte buffers become `List Nat` (each entry a byte value).
-/

/-- Big-endian accumulation of a byte list into a natural number
(`binary.BigEndian.UintNN`); each byte is normalized mod 256. -/
def beNat (bs : List Nat) : Nat :=
  bs.foldl (fun a b => a * 256 + b % 256) 0

/-- Two's-complement reinterpretation of a 64-bit unsigned value as Go `int64`
(the cast `ID(binary.BigEndian.Uint64(...))`). -/
def toI64 (n : Nat) : Int :=
  if n % 2 ^ 64 < 2 ^ 63 then ((n % 2 ^ 64 : Nat) : Int)
  else ((n % 2 ^ 64 : Nat) : Int) - 2 ^ 64

/-- Two's-complement reinterpretation of a 32-bit unsigned value as Go `int32`. -/
def toI32 (n : Nat) : Int :=
  if n % 2 ^ 32 < 2 ^ 31 then ((n % 2 ^ 32 : Nat) : Int)
  else ((n % 2 ^ 32 : Nat) : Int) - 2 ^ 32

/-- Wrap-around of Go `int32` arithmetic. -/
def wrap32 (x : Int) : Int :=
  (x + 2 ^ 31) % 2 ^ 32 - 2 ^ 31

/-- Embeds `type ID int64` from `internal/hprof/class.go`. -/
abbrev ID := Int

/-- Embeds `type BasicType byte`: primitive type codes (object=2, boolean=4, char=5,
float=6, double=7, byte=8, short=9, int=10, long=11). -/
abbrev BasicType := Nat

/-- Embeds `BasicType.GetSize` from `class.go`: byte width of a value of this type;
the Go switch returns 1 for boolean(4)/byte(8), 2 for short(9)/char(5), 4 for
float(6)/int(10), 8 for double(7)/long(11)/object(2), and 0 for every other
code. -/
def BasicType.GetSize (bt : BasicType) : Int :=
  if bt = 4 ∨ bt = 8 then 1
  else if bt = 9 ∨ bt = 5 then 2
  else if bt = 6 ∨ bt = 10 then 4
  else if bt = 7 ∨ bt = 11 ∨ bt = 2 then 8
  else 0

/-- Embeds `BasicType.GetName` from `class.go`. -/
def BasicType.GetName (bt : BasicType) : String :=
  if bt = 4 then "bool"
  else if bt = 5 then "char"
  else if bt = 6 then "float"
  else if bt = 7 then "double"
  else if bt = 8 then "byte"
  else if bt = 9 then "short"
  else if bt = 10 then "int"
  else if bt = 11 then "long"
  else if bt = 2 then "object"
  else "unknown"

/-- Embeds `InstanceFieldRecord` from `class.go` (the Go field `Type` is spelled
`type` here because `Type` is reserved in Lean). -/
structure InstanceFieldRecord where
  FieldNameStringId : ID
  type : BasicType
deriving DecidableEq, Repr

/-- Embeds `StaticFieldRecord` from `class.go`. -/
structure StaticFieldRecord where
  StaticFieldNameStringId : ID
  type : BasicType
  Value : List Nat
deriving DecidableEq, Repr

/-- Embeds `ConstantPoolRecord` from `class.go`. -/
structure ConstantPoolRecord where
  ConstantPoolIndex : Nat
  type : BasicType
  Value : List Nat
deriving DecidableEq, Repr

/-- Embeds `ClassDump` (heap-dump sub-record 0x20) from `class.go`. -/
structure ClassDump where
  ClassObjectId : ID
  StackTraceSerialNumber : Int
  SuperClassObjectId : ID
  ClassLoaderObjectId : ID
  SignersObjectId : ID
  ProtectionDomainObjectId : ID
  reserved_1 : ID
  reserved_2 : ID
  InstanceSize : Int
  ConstantPool : List ConstantPoolRecord
  StaticFields : List StaticFieldRecord
  InstanceFields : List InstanceFieldRecord
deriving DecidableEq, Repr

/-- Embeds `InstanceDump` (heap-dump sub-record 0x21) from `class.go`. -/
structure InstanceDump where
  ObjectId : ID
  StackTraceSerialNumber : Int
  ClassObjectId : ID
  NumberOfBytes : Int
  InstanceFieldValues : List Nat
deriving DecidableEq, Repr

/-- Embeds `ObjectArrayDump` (heap-dump sub-record 0x22) from `class.go`. -/
structure ObjectArrayDump where
  ArrayObjectId : ID
  StackTraceSerialNumber : Int
  NumberOfElements : Int
  ArrayClassObjectId : ID
  Elements : List ID
deriving DecidableEq, Repr

/-- Embeds `PrimitiveArrayDump` (heap-dump sub-record 0x23) from `class.go`. -/
structure PrimitiveArrayDump where
  ArrayObjectId : ID
  StackTraceSerialNumber : Int
  NumberOfElements : Int
  ElementType : BasicType
  Elements : List Nat
deriving DecidableEq, Repr

/-- First-binding lookup in an association list; models Go map indexing
(`m[k]`, `ok` form) since Go map keys are unique. -/
def mapGet {β : Type} (m : List (ID × β)) (k : ID) : Option β :=
  match m with
  | [] => none
  | (k', v) :: rest => if k' = k then some v else mapGet rest k

/-- The process-wide decoded tables of `class.go`
(`IDtoStringInUTF8`, `ClassObjectIdToClassNameID`,
`ClassObjectIdToClassDumpMap`, `ObjectIdToInstanceDumpMap`,
`ObjectIdToObjectArrayDumpMap`, `ObjectIdToPrimitiveArrayDumpMap`),
threaded explicitly as one record. -/
structure Store where
  IDtoStringInUTF8 : List (ID × String)
  ClassObjectIdToClassNameID : List (ID × ID)
  ClassObjectIdToClassDumpMap : List (ID × ClassDump)
  ObjectIdToInstanceDumpMap : List (ID × InstanceDump)
  ObjectIdToObjectArrayDumpMap : List (ID × ObjectArrayDump)
  ObjectIdToPrimitiveArrayDumpMap : List (ID × PrimitiveArrayDump)

/-- The tagged union of heap objects that `getObject` can return
(`interface{}` holding `InstanceDump`, `ObjectArrayDump` or
`PrimitiveArrayDump`). -/
inductive HeapObject where
  | instanceObj : InstanceDump → HeapObject
  | objectArrayObj : ObjectArrayDump → HeapObject
  | primitiveArrayObj : PrimitiveArrayDump → HeapObject
deriving DecidableEq

/-- Embeds `const ArrayHeaderSize = int32(16)` from `class.go`. -/
def ArrayHeaderSize : Int := 16

/-- Embeds `getObject` from `class.go`: resolve an objectId against the instance,
object-array and primitive-array maps in that order; `nil` on a miss. -/
def getObject (store : Store) (objectId : ID) : Option HeapObject :=
  match mapGet store.ObjectIdToInstanceDumpMap objectId with
  | some obj => some (HeapObject.instanceObj obj)
  | none =>
    match mapGet store.ObjectIdToObjectArrayDumpMap objectId with
    | some obj => some (HeapObject.objectArrayObj obj)
    | none => (mapGet store.ObjectIdToPrimitiveArrayDumpMap objectId).map HeapObject.primitiveArrayObj

/-- Embeds `getObjectSize` from `class.go`: `NumberOfBytes` for an instance,
`ArrayHeaderSize + NumberOfElements*8` for an object array (the element width
is the literal 8), `ArrayHeaderSize + NumberOfElements*ElementType.GetSize()`
for a primitive array; the Go arithmetic is on `int32`, hence `wrap32`. -/
def getObjectSize : HeapObject → Int
  | HeapObject.instanceObj v => v.NumberOfBytes
  | HeapObject.objectArrayObj v => wrap32 (ArrayHeaderSize + wrap32 (v.NumberOfElements * 8))
  | HeapObject.primitiveArrayObj v =>
      wrap32 (ArrayHeaderSize + wrap32 (v.NumberOfElements * v.ElementType.GetSize))

/-- Lemma: `wrap32` is the identity on the `int32` range. -/
theorem wrap32_eq_self {x : Int} (h1 : -(2 ^ 31) ≤ x) (h2 : x < 2 ^ 31) : wrap32 x = x := by
  unfold wrap32
  have hlo : (0 : Int) ≤ x + 2 ^ 31 := by omega
  have hhi : x + 2 ^ 31 < 2 ^ 32 := by omega
  rw [Int.emod_eq_of_lt hlo hhi]
  omega

/-- The object-array element used in the counterexample to claim C1:
a one-element object array. -/
def c1Array : ObjectArrayDump :=
  ⟨1, 0, 1, 2, [0]⟩

/-- Claim C1, counterexample: it is false that for every identifier width
`W ∈ {4, 8}` declared in the header the engine reports
`16 + numberOfElements × W` for object arrays — `getObjectSize` hardcodes the
8-byte element width, so with `W = 4` the one-element array `c1Array` is
reported as 24 bytes, not `16 + 1×4 = 20`. -/
theorem getObjectSize_objectArray_width_counterexample :
    ¬ (∀ W : Int, (W = 4 ∨ W = 8) →
        ∀ a : ObjectArrayDump,
          getObjectSize (HeapObject.objectArrayObj a) = 16 + a.NumberOfElements * W) := by
  intro h
  have h4 := h 4 (Or.inl rfl) c1Array
  revert h4
  decide

/-- Claim C1, amended: absent `int32` overflow, the graph engine reports
`16 + numberOfElements × 8` for every object array — the element width is the
hardcoded constant 8 regardless of the header's identifier width — and
`16 + numberOfElements × sizeof(elementType)` for every primitive array. -/
theorem getObjectSize_formulas
    (a : ObjectArrayDump) (p : PrimitiveArrayDump)
    (ha0 : 0 ≤ a.NumberOfElements)
    (ha : 16 + a.NumberOfElements * 8 < 2 ^ 31)
    (hp0 : 0 ≤ p.NumberOfElements)
    (hp : 16 + p.NumberOfElements * p.ElementType.GetSize < 2 ^ 31) :
    getObjectSize (HeapObject.objectArrayObj a) = 16 + a.NumberOfElements * 8 ∧
    getObjectSize (HeapObject.primitiveArrayObj p) =
      16 + p.NumberOfElements * p.ElementType.GetSize := by
  have hsz : 0 ≤ p.ElementType.GetSize := by
    unfold BasicType.GetSize
    repeat' split
    all_goals omega
  have hps : 0 ≤ p.NumberOfElements * p.ElementType.GetSize := mul_nonneg hp0 hsz
  have key : ∀ y : Int, 0 ≤ y → 16 + y < 2 ^ 31 → wrap32 (16 + wrap32 y) = 16 + y := by
    intro y h0 h1
    have hin : wrap32 y = y := wrap32_eq_self (by omega) (by omega)
    rw [hin]
    exact wrap32_eq_self (by omega) (by omega)
  constructor
  · show wrap32 (ArrayHeaderSize + wrap32 (a.NumberOfElements * 8)) = _
    unfold ArrayHeaderSize
    exact key _ (by omega) ha
  · show wrap32 (ArrayHeaderSize + wrap32 (p.NumberOfElements * p.ElementType.GetSize)) = _
    unfold ArrayHeaderSize
    exact key _ hps hp

/-- Witness for `getObjectSize_formulas` at a 3-element object array and a
2-element char array. -/
theorem getObjectSize_formulas_witness :
    getObjectSize (HeapObject.objectArrayObj ⟨7, 0, 3, 2, [0, 0, 0]⟩) = 16 + 3 * 8 ∧
    getObjectSize (HeapObject.primitiveArrayObj ⟨9, 0, 2, 5, [0, 65, 0, 66]⟩) = 16 + 2 * 2 :=
  getObjectSize_formulas ⟨7, 0, 3, 2, [0, 0, 0]⟩ ⟨9, 0, 2, 5, [0, 65, 0, 66]⟩
    (by decide) (by decide) (by decide) (by decide)

/-- Embeds `readID` from `class.go`: `binary.Read` of an 8-byte big-endian `int64`
from a `bytes.Reader`. On a short read the error is ignored and the
zero-initialized value is returned; the reader is left drained. The state is
the list of remaining bytes. -/
def readID (input : List Nat) : ID × List Nat :=
  (if 8 ≤ input.length then toI64 (beNat (input.take 8)) else 0, input.drop 8)

/-- Embeds `readInt32` from `class.go` (same short-read convention as `readID`). -/
def readInt32 (input : List Nat) : Int × List Nat :=
  (if 4 ≤ input.length then toI32 (beNat (input.take 4)) else 0, input.drop 4)

/-- Embeds `readBasicType` from `class.go`: one byte. -/
def readBasicType (input : List Nat) : BasicType × List Nat :=
  (if 1 ≤ input.length then input.headD 0 else 0, input.drop 1)

/-- Embeds `readArray` from `class.go`: `make([]byte, size)` followed by a single
`reader.Read` — the available prefix is copied and any shortfall keeps the
zero fill; a negative `size` makes `make` panic, modelled as `none`. -/
def readArray (input : List Nat) (size : Int) : Option (List Nat × List Nat) :=
  if size < 0 then none
  else some (input.take size.toNat ++ List.replicate (size.toNat - input.length) 0,
             input.drop size.toNat)

/-- Embeds `readPrimitiveArrayDump` from `class.go`: identifier, stack-trace serial,
`numberOfElements:int32`, `elementType:u8`, then
`numberOfElements × elementType.GetSize()` element bytes. -/
def readPrimitiveArrayDump (input : List Nat) : Option (PrimitiveArrayDump × List Nat) :=
  match readID input with
  | (arrayObjectId, r1) =>
    match readInt32 r1 with
    | (stackTraceSerialNumber, r2) =>
      match readInt32 r2 with
      | (numberOfElements, r3) =>
        match readBasicType r3 with
        | (elementType, r4) =>
          match readArray r4 (numberOfElements * elementType.GetSize) with
          | none => none
          | some (elements, r5) =>
            some (⟨arrayObjectId, stackTraceSerialNumber, numberOfElements,
                   elementType, elements⟩, r5)

/-- Lemma: `BasicType.GetSize` returns 0 for every code outside the recognized set. -/
theorem basicTypeGetSize_eq_zero (bt : BasicType)
    (hbt : bt ∉ ([2, 4, 5, 6, 7, 8, 9, 10, 11] : List Nat)) :
    BasicType.GetSize bt = 0 := by
  simp only [List.mem_cons, List.not_mem_nil, or_false, not_or] at hbt
  obtain ⟨h2, h4, h5, h6, h7, h8, h9, h10, h11⟩ := hbt
  unfold BasicType.GetSize
  rw [if_neg (by tauto), if_neg (by tauto), if_neg (by tauto), if_neg (by tauto)]

/-- Claim C9: `BasicType.GetSize` is total with value 0 outside
`{2,4,5,6,7,8,9,10,11}`; consequently `readPrimitiveArrayDump` on a dump whose
element-type byte (offset 16 of the sub-record body) is unrecognized consumes
only the 17 header bytes — zero element bytes — succeeds, and the resulting
array is assigned size `ArrayHeaderSize = 16` alone by `getObjectSize`. -/
theorem getSize_unknown_type_primitive_array :
    (∀ bt : BasicType, bt ∉ ([2, 4, 5, 6, 7, 8, 9, 10, 11] : List Nat) →
      BasicType.GetSize bt = 0) ∧
    (∀ input : List Nat, 17 ≤ input.length →
      (input.drop 16).headD 0 ∉ ([2, 4, 5, 6, 7, 8, 9, 10, 11] : List Nat) →
      ∃ arr : PrimitiveArrayDump,
        readPrimitiveArrayDump input = some (arr, input.drop 17) ∧
        arr.Elements = [] ∧
        getObjectSize (HeapObject.primitiveArrayObj arr) = 16) := by
  refine ⟨basicTypeGetSize_eq_zero, ?_⟩
  intro input hlen htype
  have hsz : BasicType.GetSize ((input.drop 16).headD 0) = 0 :=
    basicTypeGetSize_eq_zero _ htype
  have h8 : 8 ≤ input.length := by omega
  have h4a : 4 ≤ (input.drop 8).length := by
    simp only [List.length_drop]; omega
  have h4b : 4 ≤ ((input.drop 8).drop 4).length := by
    simp only [List.length_drop]; omega
  have h1c : 1 ≤ (input.drop 16).length := by
    simp only [List.length_drop]; omega
  have e16 : ((input.drop 8).drop 4).drop 4 = input.drop 16 := by
    simp [List.drop_drop]
  unfold readPrimitiveArrayDump readID readInt32 readBasicType
  simp only [if_pos h8, if_pos h4a, if_pos h4b, e16, if_pos h1c, hsz, mul_zero]
  unfold readArray
  rw [if_neg (by omega : ¬ (0 : Int) < 0)]
  simp only [Int.toNat_zero, List.take_zero, Nat.zero_sub, List.replicate_zero,
    List.nil_append, List.append_nil, List.drop_zero, List.drop_drop]
  norm_num
  have hsz' : BasicType.GetSize (input[16]?.getD 0) = 0 := by
    have e : input[16]?.getD 0 = (input.drop 16).headD 0 := by
      simp [List.headD_eq_head?, List.head?_drop]
    rw [e]
    exact hsz
  simp only [getObjectSize, hsz', mul_zero]
  decide

/-- A 19-byte primitive-array sub-record body whose element-type byte is the
unrecognized code 3, followed by two trailing bytes. -/
def c9Input : List Nat :=
  [0, 0, 0, 0, 0, 0, 0, 1, 0, 0, 0, 0, 0, 0, 0, 5, 3, 9, 9]

/-- Witness for `getSize_unknown_type_primitive_array` at `c9Input`. -/
theorem getSize_unknown_type_primitive_array_witness :
    ∃ arr : PrimitiveArrayDump,
      readPrimitiveArrayDump c9Input = some (arr, c9Input.drop 17) ∧
      arr.Elements = [] ∧
      getObjectSize (HeapObject.primitiveArrayObj arr) = 16 :=
  getSize_unknown_type_primitive_array.2 c9Input (by decide) (by decide)

/-- Embeds `var hprofMark = "JAVA PROFILE 1.0.2"` from the header reader, as bytes. -/
def hprofMark : List Nat :=
  [74, 65, 86, 65, 32, 80, 82, 79, 70, 73, 76, 69, 32, 49, 46, 48, 46, 50]

/-- The `Header` struct of the header reader: `IdSize uint32` and the raw
big-endian signed millisecond timestamp (the Go code wraps it into a
`time.Time` via `time.Unix(ts/1000, ts%1000)`; the wall-clock wrapper carries
no extra information and is out of the byte-level model). -/
structure Header where
  IdSize : Nat
  TimeStamp : Int
deriving DecidableEq, Repr

/-- Embeds `IsHprofStart` from the header reader: at least 19 bytes, the first 18
equal to `JAVA PROFILE 1.0.2`, and byte 18 equal to zero. -/
def IsHprofStart (data : List Nat) : Bool :=
  decide (19 ≤ data.length) && decide (data.take 18 = hprofMark) && decide (data.get? 18 = some 0)

/-- Embeds `ReadHeader` from the header reader: `io.ReadFull` of 19 bytes (error if
fewer), the `IsHprofStart` check, then a big-endian `uint32` identifier size
and a big-endian `int64` timestamp (error if the input is exhausted
mid-value). Errors are modelled as `none`. -/
def ReadHeader (input : List Nat) : Option Header :=
  if input.length < 19 then none
  else if IsHprofStart (input.take 19) then
    if input.length < 23 then none
    else if input.length < 31 then none
    else some ⟨beNat ((input.drop 19).take 4), toI64 (beNat ((input.drop 23).take 8))⟩
  else none

/-- Claim C7: `ReadHeader` errors on every input whose first 19 bytes are not
exactly the 18 ASCII bytes `JAVA PROFILE 1.0.2` followed by a zero byte (in
particular on every input shorter than 19 bytes), and succeeds — returning the
declared identifier size and the declared timestamp — on every input that
starts with that magic and carries at least 12 further bytes. -/
theorem readHeader_magic :
    (∀ input : List Nat, ¬ IsHprofStart (input.take 19) = true → ReadHeader input = none) ∧
    (∀ input : List Nat, IsHprofStart (input.take 19) = true → 31 ≤ input.length →
      ReadHeader input =
        some ⟨beNat ((input.drop 19).take 4), toI64 (beNat ((input.drop 23).take 8))⟩) := by
  constructor
  · intro input hbad
    unfold ReadHeader
    by_cases hl : input.length < 19
    · rw [if_pos hl]
    · rw [if_neg hl, if_neg hbad]
  · intro input hgood hlen
    unfold ReadHeader
    rw [if_neg (by omega), if_pos hgood, if_neg (by omega), if_neg (by omega)]

/-- A well-formed 31-byte header: magic, zero byte, identifier size 8,
timestamp 1000. -/
def c7GoodInput : List Nat :=
  hprofMark ++ [0] ++ [0, 0, 0, 8] ++ [0, 0, 0, 0, 0, 0, 3, 232]

/-- Witness for `readHeader_magic`: the empty input errors, and `c7GoodInput`
parses to identifier size 8 and timestamp 1000. -/
theorem readHeader_magic_witness :
    ReadHeader [] = none ∧ ReadHeader c7GoodInput = some ⟨8, 1000⟩ := by
  constructor
  · exact readHeader_magic.1 [] (by decide)
  · have h := readHeader_magic.2 c7GoodInput (by decide) (by decide)
    rw [h]
    decide

/-- The analysis entry points of `internal/hprof` that the interfaces can
invoke (the `action` members of the CLI `commands` table plus
`AnalyzeDuplicateStrings`, which the HTTP front-end dispatches). -/
inductive AnalysisAction where
  | printSizeClasses
  | printCountInstances
  | printObjectLoadersInfo
  | printFullClassSize
  | printArrayInfo
  | analyzeLongArrays
  | analyzeHashMapOverheads
  | analyzeArrayOwners
  | analyzeTopArrayOwners
  | analyzeDuplicateStrings
deriving DecidableEq, Repr

/-- The `command` struct of the interactive CLI (`cmd` package): numeric id,
description, parameter prompt (`nil` modelled as `none`) and the invoked
analysis. -/
structure Command where
  id : Int
  description : String
  prompt : Option String
  action : AnalysisAction
deriving DecidableEq, Repr

/-- The `commands` catalog of the interactive CLI, entry for entry. -/
def commands : List Command :=
  [⟨1, "Print size classes", some "Enter max count of classes to print: ",
      AnalysisAction.printSizeClasses⟩,
   ⟨2, "Print count instances", some "Enter max count of instances to print: ",
      AnalysisAction.printCountInstances⟩,
   ⟨3, "Print object loaders info", some "Enter max count of loaders to print: ",
      AnalysisAction.printObjectLoadersInfo⟩,
   ⟨4, "Print full class size", some "Enter max count of classes to print: ",
      AnalysisAction.printFullClassSize⟩,
   ⟨5, "Print array info", some "Enter max count of arrays to print: ",
      AnalysisAction.printArrayInfo⟩,
   ⟨6, "Analyze long arrays", some "Enter min size of array: ",
      AnalysisAction.analyzeLongArrays⟩,
   ⟨7, "Analyze HashMap overheads", some "Enter max count of HashMap: ",
      AnalysisAction.analyzeHashMapOverheads⟩,
   ⟨8, "Analyze array owners",
      some "Enter min count of elements in array, witch owners need to print: ",
      AnalysisAction.analyzeArrayOwners⟩,
   ⟨9, "Analyze top array owners", some "Enter max count of array owners to print: ",
      AnalysisAction.analyzeTopArrayOwners⟩]

/-- Modelled from the spec (section 6, command catalog table): number,
analysis, and whether a parameter is prompted for. This is the
specification-side catalog used to compare the CLI table against. -/
def specCatalog : List (Int × AnalysisAction × Bool) :=
  [(1, AnalysisAction.printSizeClasses, true),
   (2, AnalysisAction.printCountInstances, true),
   (3, AnalysisAction.printObjectLoadersInfo, true),
   (4, AnalysisAction.printFullClassSize, true),
   (5, AnalysisAction.printArrayInfo, true),
   (6, AnalysisAction.analyzeLongArrays, true),
   (7, AnalysisAction.analyzeHashMapOverheads, true),
   (8, AnalysisAction.analyzeDuplicateStrings, false)]

/-- Claim C8, counterexample: in the CLI catalog the entry numbered 8 invokes
`AnalyzeArrayOwners` and does prompt for a parameter — not
`analyzeDuplicateStrings` with no prompt as the spec's table demands. -/
theorem commands_entry_eight_counterexample :
    ((commands.filter (fun c => c.id = 8)).map (fun c => (c.action, c.prompt.isSome))) =
      [(AnalysisAction.analyzeArrayOwners, true)] ∧
    AnalysisAction.analyzeArrayOwners ≠ AnalysisAction.analyzeDuplicateStrings := by
  constructor
  · rfl
  · decide

/-- Claim C8, amended: the CLI catalog matches the spec's table on numbers 1
through 7; entry 8, however, invokes `AnalyzeArrayOwners` with a min-elements
prompt and entry 9 invokes `AnalyzeTopArrayOwners`; `analyzeDuplicateStrings`
appears nowhere in the CLI catalog (it is reachable only through the HTTP
front-end, whose command 8 takes no parameter). -/
theorem commands_catalog_amended :
    (∀ n ∈ ([1, 2, 3, 4, 5, 6, 7] : List Int),
      ((commands.filter (fun c => c.id = n)).map (fun c => (c.action, c.prompt.isSome))) =
        ((specCatalog.filter (fun e => e.1 = n)).map (fun e => e.2))) ∧
    ((commands.filter (fun c => c.id = 8)).map (fun c => (c.action, c.prompt.isSome))) =
      [(AnalysisAction.analyzeArrayOwners, true)] ∧
    ((commands.filter (fun c => c.id = 9)).map (fun c => (c.action, c.prompt.isSome))) =
      [(AnalysisAction.analyzeTopArrayOwners, true)] ∧
    (∀ c ∈ commands, c.action ≠ AnalysisAction.analyzeDuplicateStrings) := by
  refine ⟨?_, rfl, rfl, ?_⟩
  · intro n hn
    fin_cases hn <;> rfl
  · intro c hc
    fin_cases hc <;> decide

/-- Witness for `commands_catalog_amended` at `n = 1` and the first entry. -/
theorem commands_catalog_amended_witness :
    ((commands.filter (fun c => c.id = 1)).map (fun c => (c.action, c.prompt.isSome))) =
      ((specCatalog.filter (fun e => e.1 = 1)).map (fun e => e.2)) ∧
    (commands.headD ⟨0, "", none, AnalysisAction.printSizeClasses⟩).action ≠
      AnalysisAction.analyzeDuplicateStrings := by
  constructor
  · exact commands_catalog_amended.1 1 (by decide)
  · exact commands_catalog_amended.2.2.2 _ (by decide)

/-- The superclass-chain loop of `parseInstanceReferences` in `class.go`:
starting from a class id, prepend each class's `InstanceFields` to the
accumulator (`allFields = append(classDump.InstanceFields, allFields...)`) and
follow `SuperClassObjectId` until it is 0 or the class is missing from the
store. The Go loop diverges on a cyclic chain; `fuel` bounds the walk and
exhaustion is `none`. -/
def collectInstanceFields (store : Store) :
    Nat → ID → List InstanceFieldRecord → Option (List InstanceFieldRecord)
  | 0, _, _ => none
  | fuel + 1, currentClassId, allFields =>
    match mapGet store.ClassObjectIdToClassDumpMap currentClassId with
    | none => some allFields
    | some classDump =>
      if classDump.SuperClassObjectId = 0 then some (classDump.InstanceFields ++ allFields)
      else collectInstanceFields store fuel classDump.SuperClassObjectId
             (classDump.InstanceFields ++ allFields)

/-- The ClassDescriptor chain of a class: the class itself followed by its
superclasses up to the root (super id 0) or the first id missing from the
store; `none` when `fuel` runs out before the chain ends. -/
def classChain (store : Store) : Nat → ID → Option (List ClassDump)
  | 0, _ => none
  | fuel + 1, currentClassId =>
    match mapGet store.ClassObjectIdToClassDumpMap currentClassId with
    | none => some []
    | some classDump =>
      if classDump.SuperClassObjectId = 0 then some [classDump]
      else (classChain store fuel classDump.SuperClassObjectId).map
             (fun chain => classDump :: chain)

/-- The reference-extraction loop of `parseInstanceReferences`: walk the field
list left to right keeping a byte offset advanced by each field's declared
width; at every `object`-typed field read the 8 bytes
`InstanceFieldValues[offset:offset+8]` big-endian, or stop altogether when
`offset+8` exceeds the payload length. -/
def extractRefs : List InstanceFieldRecord → Nat → List Nat → List ID
  | [], _, _ => []
  | field :: rest, offset, values =>
    if field.type = 2 then
      if values.length < offset + 8 then []
      else toI64 (beNat ((values.drop offset).take 8)) ::
             extractRefs rest (offset + (BasicType.GetSize field.type).toNat) values
    else extractRefs rest (offset + (BasicType.GetSize field.type).toNat) values

/-- Instrumented twin of `extractRefs`: records, instead of the decoded
identifiers, the `(start, end)` byte ranges that `extractRefs` slices out of
the payload. Same recursion, same guards. -/
def extractRefsSlices : List InstanceFieldRecord → Nat → List Nat → List (Nat × Nat)
  | [], _, _ => []
  | field :: rest, offset, values =>
    if field.type = 2 then
      if values.length < offset + 8 then []
      else (offset, offset + 8) ::
             extractRefsSlices rest (offset + (BasicType.GetSize field.type).toNat) values
    else extractRefsSlices rest (offset + (BasicType.GetSize field.type).toNat) values

/-- Embeds `parseInstanceReferences` from `class.go`: gather the field list along the
superclass chain, then extract the `object`-typed field values from the
payload; `none` when the chain walk exhausts its fuel (the Go loop would not
terminate). -/
def parseInstanceReferences (store : Store) (fuel : Nat) (inst : InstanceDump) :
    Option (List ID) :=
  (collectInstanceFields store fuel inst.ClassObjectId []).map
    (fun allFields => extractRefs allFields 0 inst.InstanceFieldValues)

/-- Embeds `getReferences` from `class.go`: instance references come from
`parseInstanceReferences`, object arrays contribute all their elements, and
anything else contributes none. -/
def getReferences (store : Store) (fuel : Nat) : HeapObject → Option (List ID)
  | HeapObject.instanceObj v => parseInstanceReferences store fuel v
  | HeapObject.objectArrayObj v => some v.Elements
  | HeapObject.primitiveArrayObj _ => some []

/-- Embeds `getNameByClassObjectId` from `class.go`:
`IDtoStringInUTF8[ClassObjectIdToClassNameID[id]]`; each missed Go map read
yields the zero value (0 for the inner id, the empty string for the name). -/
def getNameByClassObjectId (store : Store) (objectId : ID) : String :=
  match mapGet store.ClassObjectIdToClassNameID objectId with
  | some nameId => (mapGet store.IDtoStringInUTF8 nameId).getD ""
  | none => (mapGet store.IDtoStringInUTF8 0).getD ""

/-- Lemma: `collectInstanceFields` accumulates exactly the instance-field lists of
the reversed class chain. -/
theorem collectInstanceFields_eq_chain (store : Store) :
    ∀ (fuel : Nat) (cid : ID) (acc : List InstanceFieldRecord) (chain : List ClassDump),
      classChain store fuel cid = some chain →
      collectInstanceFields store fuel cid acc =
        some ((chain.reverse.map (fun c => c.InstanceFields)).flatten ++ acc) := by
  intro fuel
  induction fuel with
  | zero => intro cid acc chain h; simp [classChain] at h
  | succ fuel ih =>
    intro cid acc chain h
    unfold classChain at h
    unfold collectInstanceFields
    cases hc : mapGet store.ClassObjectIdToClassDumpMap cid with
    | none =>
      simp only [hc, Option.some.injEq] at h
      subst h
      simp [hc]
    | some classDump =>
      simp only [hc] at h ⊢
      by_cases hsup : classDump.SuperClassObjectId = 0
      · rw [if_pos hsup] at h ⊢
        simp only [Option.some.injEq] at h
        subst h
        simp
      · rw [if_neg hsup] at h ⊢
        cases hrec : classChain store fuel classDump.SuperClassObjectId with
        | none => rw [hrec] at h; simp at h
        | some chain' =>
          rw [hrec] at h
          simp at h
          subst h
          rw [ih _ _ _ hrec]
          simp [List.flatten_append]

/-- Each field of a field list paired with its cumulative byte offset, the
offset advancing by the declared width of every field passed. -/
def fieldOffsets : List InstanceFieldRecord → Nat → List (InstanceFieldRecord × Nat)
  | [], _ => []
  | field :: rest, offset =>
    (field, offset) :: fieldOffsets rest (offset + (BasicType.GetSize field.type).toNat)

/-- Once the offset is too close to the end of the payload, no later field
passes the in-bounds object-read filter (offsets only grow). -/
theorem fieldOffsets_filter_nil (L : Nat) :
    ∀ (fields : List InstanceFieldRecord) (offset : Nat), L < offset + 8 →
      (fieldOffsets fields offset).filter
        (fun p => decide (p.1.type = 2) && decide (p.2 + 8 ≤ L)) = [] := by
  intro fields
  induction fields with
  | nil => intro offset _; rfl
  | cons field rest ih =>
    intro offset hoff
    unfold fieldOffsets
    rw [List.filter_cons]
    rw [if_neg (by simp; omega)]
    exact ih _ (by omega)

/-- Lemma: `extractRefs` reads exactly the object-typed fields whose cumulative
offset fits in the payload, big-endian at that offset. -/
theorem extractRefs_eq_filter_map :
    ∀ (fields : List InstanceFieldRecord) (offset : Nat) (values : List Nat),
      extractRefs fields offset values =
        ((fieldOffsets fields offset).filter
          (fun p => decide (p.1.type = 2) && decide (p.2 + 8 ≤ values.length))).map
          (fun p => toI64 (beNat ((values.drop p.2).take 8))) := by
  intro fields
  induction fields with
  | nil => intro offset values; rfl
  | cons field rest ih =>
    intro offset values
    unfold extractRefs fieldOffsets
    rw [List.filter_cons]
    by_cases ht : field.type = 2
    · rw [if_pos ht]
      by_cases hb : values.length < offset + 8
      · rw [if_pos hb, if_neg (by simp; omega)]
        rw [fieldOffsets_filter_nil _ _ _ (by omega)]
        rfl
      · rw [if_neg hb, if_pos (by simp; constructor; exact ht; omega)]
        rw [List.map_cons, ih]
    · rw [if_neg ht, if_neg (by simp; intro h; exact absurd h ht)]
      exact ih _ _

/-- Lemma: `extractRefs` decodes exactly the byte ranges that `extractRefsSlices`
records. -/
theorem extractRefs_eq_slices_map :
    ∀ (fields : List InstanceFieldRecord) (offset : Nat) (values : List Nat),
      extractRefs fields offset values =
        (extractRefsSlices fields offset values).map
          (fun se => toI64 (beNat ((values.drop se.1).take 8))) := by
  intro fields
  induction fields with
  | nil => intro offset values; rfl
  | cons field rest ih =>
    intro offset values
    unfold extractRefs extractRefsSlices
    by_cases ht : field.type = 2
    · rw [if_pos ht, if_pos ht]
      by_cases hb : values.length < offset + 8
      · rw [if_pos hb, if_pos hb]
        rfl
      · rw [if_neg hb, if_neg hb, List.map_cons, ih]
    · rw [if_neg ht, if_neg ht]
      exact ih _ _

/-- Every recorded slice is an 8-byte range that ends inside the payload and
starts no earlier than the running offset. -/
theorem extractRefsSlices_bounds :
    ∀ (fields : List InstanceFieldRecord) (offset : Nat) (values : List Nat)
      (se : Nat × Nat), se ∈ extractRefsSlices fields offset values →
      se.2 = se.1 + 8 ∧ se.2 ≤ values.length ∧ offset ≤ se.1 := by
  intro fields
  induction fields with
  | nil => intro offset values se h; simp [extractRefsSlices] at h
  | cons field rest ih =>
    intro offset values se h
    unfold extractRefsSlices at h
    by_cases ht : field.type = 2
    · rw [if_pos ht] at h
      by_cases hb : values.length < offset + 8
      · rw [if_pos hb] at h
        simp at h
      · rw [if_neg hb] at h
        rcases List.mem_cons.mp h with h1 | h2
        · subst h1
          exact ⟨rfl, by omega, by omega⟩
        · have := ih _ _ _ h2
          exact ⟨this.1, this.2.1, by omega⟩
    · rw [if_neg ht] at h
      have := ih _ _ _ h
      exact ⟨this.1, this.2.1, by omega⟩

/-- Claim C2: for every instance whose class chain resolves, the projected
field list is the concatenation of the chain's `InstanceFields` in
root-superclass-first order, ending with the instance's own class, and the
payload is then read left to right, each field advancing the offset by its
declared width and each object-typed field decoded big-endian at its
cumulative offset (when it fits the payload). -/
theorem parseInstanceReferences_superclass_order
    (store : Store) (fuel : Nat) (inst : InstanceDump) (chain : List ClassDump)
    (h : classChain store fuel inst.ClassObjectId = some chain) :
    parseInstanceReferences store fuel inst =
      some (extractRefs ((chain.reverse.map (fun c => c.InstanceFields)).flatten) 0
        inst.InstanceFieldValues) ∧
    (∀ (fields : List InstanceFieldRecord) (offset : Nat) (values : List Nat),
      extractRefs fields offset values =
        ((fieldOffsets fields offset).filter
          (fun p => decide (p.1.type = 2) && decide (p.2 + 8 ≤ values.length))).map
          (fun p => toI64 (beNat ((values.drop p.2).take 8)))) := by
  constructor
  · unfold parseInstanceReferences
    rw [collectInstanceFields_eq_chain store fuel inst.ClassObjectId [] chain h]
    simp
  · exact extractRefs_eq_filter_map

/-- The two-class store of the C2 witness: class 17 with one `int` field
under root class 16 with one `object` field, in the class-dump map. -/
def c2Store : Store :=
  ⟨[], [], [(16, ⟨16, 0, 0, 0, 0, 0, 0, 0, 8, [], [], [⟨40, 10⟩]⟩),
            (17, ⟨17, 0, 16, 0, 0, 0, 0, 0, 12, [], [], [⟨41, 2⟩]⟩)], [], [], []⟩

/-- The instance of class 17 used by the C2 witness: a 4-byte `int` then an
8-byte object id 99. -/
def c2Inst : InstanceDump :=
  ⟨5, 0, 17, 12, [0, 0, 0, 42, 0, 0, 0, 0, 0, 0, 0, 99]⟩

/-- Witness for `parseInstanceReferences_superclass_order` on `c2Store`:
the chain of class 17 is [class 17, class 16]. -/
theorem parseInstanceReferences_superclass_order_witness :
    parseInstanceReferences c2Store 2 c2Inst =
      some (extractRefs
        ((([⟨17, 0, 16, 0, 0, 0, 0, 0, 12, [], [], [⟨41, 2⟩]⟩,
            ⟨16, 0, 0, 0, 0, 0, 0, 0, 8, [], [], [⟨40, 10⟩]⟩] :
           List ClassDump).reverse.map (fun c => c.InstanceFields)).flatten) 0
        c2Inst.InstanceFieldValues) :=
  (parseInstanceReferences_superclass_order c2Store 2 c2Inst _ (by decide)).1

/-- Claim C5: reference extraction never reads outside the instance payload —
every byte range it slices from `InstanceFieldValues` is an 8-byte range lying
within `[0, numberOfBytes)`, and extraction stops (the guard
`offset+8 > length` breaks the loop) instead of over-reading. -/
theorem instance_projection_no_overread
    (fields : List InstanceFieldRecord) (inst : InstanceDump)
    (hlen : inst.NumberOfBytes = (inst.InstanceFieldValues.length : Int)) :
    extractRefs fields 0 inst.InstanceFieldValues =
      (extractRefsSlices fields 0 inst.InstanceFieldValues).map
        (fun se => toI64 (beNat ((inst.InstanceFieldValues.drop se.1).take 8))) ∧
    ∀ se ∈ extractRefsSlices fields 0 inst.InstanceFieldValues,
      se.2 = se.1 + 8 ∧ (se.2 : Int) ≤ inst.NumberOfBytes := by
  constructor
  · exact extractRefs_eq_slices_map fields 0 inst.InstanceFieldValues
  · intro se hse
    have h := extractRefsSlices_bounds fields 0 inst.InstanceFieldValues se hse
    refine ⟨h.1, ?_⟩
    rw [hlen]
    exact_mod_cast h.2.1

/-- Witness for `instance_projection_no_overread`: a single object field over
an 8-byte payload produces the one slice [0, 8). -/
theorem instance_projection_no_overread_witness :
    extractRefs [⟨41, 2⟩] 0 (⟨5, 0, 17, 8, [0, 0, 0, 0, 0, 0, 0, 99]⟩ :
        InstanceDump).InstanceFieldValues =
      (extractRefsSlices [⟨41, 2⟩] 0 (⟨5, 0, 17, 8, [0, 0, 0, 0, 0, 0, 0, 99]⟩ :
          InstanceDump).InstanceFieldValues).map
        (fun se => toI64 (beNat (((⟨5, 0, 17, 8, [0, 0, 0, 0, 0, 0, 0, 99]⟩ :
          InstanceDump).InstanceFieldValues.drop se.1).take 8))) ∧
    ∀ se ∈ extractRefsSlices [⟨41, 2⟩] 0 (⟨5, 0, 17, 8, [0, 0, 0, 0, 0, 0, 0, 99]⟩ :
        InstanceDump).InstanceFieldValues,
      se.2 = se.1 + 8 ∧ (se.2 : Int) ≤ (⟨5, 0, 17, 8, [0, 0, 0, 0, 0, 0, 0, 99]⟩ :
        InstanceDump).NumberOfBytes :=
  instance_projection_no_overread [⟨41, 2⟩] ⟨5, 0, 17, 8, [0, 0, 0, 0, 0, 0, 0, 99]⟩
    (by decide)

/-- Embeds `sizeOfId`: the `if obj := getObject(id); obj != nil` pattern of
`CalculateClassSizes` — the size contribution of an id, 0 when it does not
resolve. -/
def sizeOfId (store : Store) (objectId : ID) : Int :=
  match getObject store objectId with
  | some obj => getObjectSize obj
  | none => 0

/-- The inner `for _, refId := range ...` body of the reachability loop in
`CalculateClassSizes`: each not-yet-visited referent is marked visited,
appended to the FIFO, and its size (0 if unresolvable) added to the total. -/
def enqueueRefs (store : Store) :
    List ID → List ID → List ID → Int → List ID × List ID × Int
  | [], queue, visited, totalSize => (queue, visited, totalSize)
  | refId :: rest, queue, visited, totalSize =>
    if refId ∈ visited then enqueueRefs store rest queue visited totalSize
    else enqueueRefs store rest (queue ++ [refId]) (visited ++ [refId])
           (totalSize + sizeOfId store refId)

/-- The `for len(queue) > 0` reachability loop of `CalculateClassSizes`:
pop the FIFO head, skip it when unresolvable, otherwise enqueue its
not-yet-visited referents. `chainFuel` bounds every superclass-chain walk and
`fuel` bounds loop iterations; exhaustion of either is `none` (the Go loop
diverges on a cyclic class chain and cannot exhaust `fuel` when it is at least
the iteration count). -/
def closureLoop (store : Store) (chainFuel : Nat) :
    Nat → List ID → List ID → Int → Option (List ID × Int)
  | _, [], visited, totalSize => some (visited, totalSize)
  | 0, _ :: _, _, _ => none
  | fuel + 1, currentId :: queue, visited, totalSize =>
    match getObject store currentId with
    | none => closureLoop store chainFuel fuel queue visited totalSize
    | some obj =>
      match getReferences store chainFuel obj with
      | none => none
      | some refs =>
        match enqueueRefs store refs queue visited totalSize with
        | (queue', visited', totalSize') =>
          closureLoop store chainFuel fuel queue' visited' totalSize'

/-- The reachability closure of a seed set, seeded the way
`CalculateClassSizes` seeds it (every seed marked visited, pushed into the
FIFO, and its size emitted) and then run through `closureLoop`. -/
def closureFrom (store : Store) (chainFuel fuel : Nat) (seeds : List ID) :
    Option (List ID × Int) :=
  closureLoop store chainFuel fuel seeds seeds ((seeds.map (sizeOfId store)).sum)

/-- The empty object store. -/
def emptyStore : Store := ⟨[], [], [], [], [], []⟩

/-- Claim C6, counterexample: on a lookup miss the in-memory analyses
substitute the empty string — the Go zero value of
`IDtoStringInUTF8[ClassObjectIdToClassNameID[id]]` — for the class name, not
an `Unknown class <id>` placeholder: resolving id 5 against the empty store
yields `""`, which differs from `"Unknown class 5"`. -/
theorem getNameByClassObjectId_miss_counterexample :
    getNameByClassObjectId emptyStore 5 = "" ∧
    getNameByClassObjectId emptyStore 5 ≠ "Unknown class 5" := by
  constructor
  · rfl
  · decide

/-- Claim C6, amended: an analysis run does not abort on a missed objectId
lookup — a class name whose chain of map lookups misses resolves to the empty
string (the Go zero value), and the reachability loop skips an unresolvable
id and continues with the remaining queue. (The `Unknown class <id>`
placeholder exists only in the SQL-backed owner analyses, not in the
in-memory analytics.) -/
theorem unresolved_lookup_continues :
    (∀ (store : Store) (objectId : ID),
      mapGet store.ClassObjectIdToClassNameID objectId = none →
      mapGet store.IDtoStringInUTF8 0 = none →
      getNameByClassObjectId store objectId = "") ∧
    (∀ (store : Store) (chainFuel fuel : Nat) (x : ID) (queue visited : List ID)
      (totalSize : Int), getObject store x = none →
      closureLoop store chainFuel (fuel + 1) (x :: queue) visited totalSize =
        closureLoop store chainFuel fuel queue visited totalSize) := by
  constructor
  · intro store objectId h1 h2
    unfold getNameByClassObjectId
    rw [h1, h2]
    rfl
  · intro store chainFuel fuel x queue visited totalSize h
    conv_lhs => unfold closureLoop
    rw [h]

/-- Witness for `unresolved_lookup_continues`: the empty store misses id 5 and
the loop steps past it. -/
theorem unresolved_lookup_continues_witness :
    getNameByClassObjectId emptyStore 5 = "" ∧
    closureLoop emptyStore 1 1 [5] [5] 0 = closureLoop emptyStore 1 0 [] [5] 0 := by
  constructor
  · exact unresolved_lookup_continues.1 emptyStore 5 (by decide) (by decide)
  · exact unresolved_lookup_continues.2 emptyStore 1 0 5 [] [5] 0 (by decide)

/-- Lemma: `enqueueRefs` appends one block of fresh ids to both the FIFO and the
visited list, adds exactly their sizes to the total, and that block consists
of distinct, previously unvisited members of the processed reference list,
while every processed reference ends up visited. -/
theorem enqueueRefs_spec (store : Store) :
    ∀ (refs queue visited : List ID) (totalSize : Int),
      ∃ new : List ID,
        enqueueRefs store refs queue visited totalSize =
          (queue ++ new, visited ++ new, totalSize + (new.map (sizeOfId store)).sum) ∧
        (∀ r ∈ refs, r ∈ visited ++ new) ∧
        (∀ n ∈ new, n ∉ visited) ∧
        new.Nodup ∧
        (∀ n ∈ new, n ∈ refs) := by
  intro refs
  induction refs with
  | nil =>
    intro q v t
    exact ⟨[], by simp [enqueueRefs], by simp, by simp, List.nodup_nil, by simp⟩
  | cons r rest ih =>
    intro q v t
    unfold enqueueRefs
    by_cases hr : r ∈ v
    · rw [if_pos hr]
      obtain ⟨new, heq, hmem, hfresh, hnodup, hsub⟩ := ih q v t
      refine ⟨new, heq, ?_, hfresh, hnodup, ?_⟩
      · intro x hx
        rcases List.mem_cons.mp hx with h1 | h2
        · subst h1; exact List.mem_append.mpr (Or.inl hr)
        · exact hmem x h2
      · intro n hn; exact List.mem_cons.mpr (Or.inr (hsub n hn))
    · rw [if_neg hr]
      obtain ⟨new, heq, hmem, hfresh, hnodup, hsub⟩ :=
        ih (q ++ [r]) (v ++ [r]) (t + sizeOfId store r)
      have hassocq : (q ++ [r]) ++ new = q ++ (r :: new) := by simp
      have hassocv : (v ++ [r]) ++ new = v ++ (r :: new) := by simp
      refine ⟨r :: new, ?_, ?_, ?_, ?_, ?_⟩
      · rw [heq, hassocq, hassocv]
        simp [add_assoc]
      · intro x hx
        rcases List.mem_cons.mp hx with h1 | h2
        · rw [h1]
          exact List.mem_append.mpr (Or.inr (List.mem_cons.mpr (Or.inl rfl)))
        · have := hmem x h2
          rw [hassocv] at this
          exact this
      · intro n hn
        rcases List.mem_cons.mp hn with h1 | h2
        · rw [h1]; exact hr
        · intro hv
          exact hfresh n h2 (List.mem_append.mpr (Or.inl hv))
      · refine List.nodup_cons.mpr ⟨?_, hnodup⟩
        intro hrnew
        exact hfresh r hrnew (List.mem_append.mpr (Or.inr (List.mem_singleton.mpr rfl)))
      · intro n hn
        rcases List.mem_cons.mp hn with h1 | h2
        · rw [h1]; exact List.mem_cons.mpr (Or.inl rfl)
        · exact List.mem_cons.mpr (Or.inr (hsub n h2))

/-- When all references are already visited, `enqueueRefs` changes nothing. -/
theorem enqueueRefs_visited (store : Store) :
    ∀ (refs queue visited : List ID) (totalSize : Int),
      (∀ r ∈ refs, r ∈ visited) →
      enqueueRefs store refs queue visited totalSize = (queue, visited, totalSize) := by
  intro refs
  induction refs with
  | nil => intro q v t _; rfl
  | cons r rest ih =>
    intro q v t h
    unfold enqueueRefs
    rw [if_pos (h r (List.mem_cons_self r rest))]
    exact ih q v t (fun x hx => h x (List.mem_cons.mpr (Or.inr hx)))

/-- The id `x` is reference-closed into the id list `S`: whenever `x`
resolves, its reference list is defined and lands inside `S`. -/
def RefsGoodAt (store : Store) (chainFuel : Nat) (x : ID) (S : List ID) : Prop :=
  ∀ obj, getObject store x = some obj →
    ∃ refs, getReferences store chainFuel obj = some refs ∧ ∀ r ∈ refs, r ∈ S

/-- Reference-closedness is monotone in the target list. -/
theorem refsGoodAt_mono {store : Store} {chainFuel : Nat} {x : ID} {S T : List ID}
    (hST : ∀ y ∈ S, y ∈ T) (h : RefsGoodAt store chainFuel x S) :
    RefsGoodAt store chainFuel x T := by
  intro obj hobj
  obtain ⟨refs, h1, h2⟩ := h obj hobj
  exact ⟨refs, h1, fun r hr => hST r (h2 r hr)⟩

/-- Running the loop over a queue of already-visited, reference-closed ids
drains the queue without changing the visited list or the total. -/
theorem closureLoop_closed (store : Store) (chainFuel : Nat) :
    ∀ (fuel : Nat) (queue visited : List ID) (totalSize : Int),
      queue.length ≤ fuel →
      (∀ x ∈ queue, x ∈ visited) →
      (∀ x ∈ visited, RefsGoodAt store chainFuel x visited) →
      closureLoop store chainFuel fuel queue visited totalSize =
        some (visited, totalSize) := by
  intro fuel
  induction fuel with
  | zero =>
    intro queue visited totalSize hlen _ _
    have : queue = [] := List.length_eq_zero.mp (Nat.le_zero.mp hlen)
    subst this
    rfl
  | succ fuel ih =>
    intro queue visited totalSize hlen hq hgood
    cases queue with
    | nil => rfl
    | cons x q =>
      have hx : x ∈ visited := hq x (List.mem_cons_self x q)
      conv_lhs => unfold closureLoop
      have hlen' : q.length ≤ fuel := by
        simp only [List.length_cons] at hlen
        omega
      cases hobj : getObject store x with
      | none =>
        exact ih q visited totalSize hlen'
          (fun y hy => hq y (List.mem_cons.mpr (Or.inr hy))) hgood
      | some obj =>
        obtain ⟨refs, hrefs, hsubset⟩ := hgood x hx obj hobj
        simp only [hrefs, enqueueRefs_visited store refs q visited totalSize hsubset]
        exact ih q visited totalSize hlen'
          (fun y hy => hq y (List.mem_cons.mpr (Or.inr hy))) hgood

/-- An empty FIFO returns immediately. -/
theorem closureLoop_nil (store : Store) (chainFuel fuel : Nat) (visited : List ID)
    (totalSize : Int) :
    closureLoop store chainFuel fuel [] visited totalSize = some (visited, totalSize) := by
  cases fuel <;> rfl

/-- Soundness of the reachability loop: from a queue of visited ids whose
already-drained part is reference-closed, a successful run extends the visited
list by a block of fresh ids, adds exactly their sizes, preserves
distinctness, and ends reference-closed. -/
theorem closureLoop_sound (store : Store) (chainFuel : Nat) :
    ∀ (fuel : Nat) (queue visited : List ID) (totalSize : Int) (V : List ID) (s : Int),
      (∀ x ∈ queue, x ∈ visited) →
      (∀ x ∈ visited, x ∉ queue → RefsGoodAt store chainFuel x visited) →
      closureLoop store chainFuel fuel queue visited totalSize = some (V, s) →
      ∃ new : List ID,
        V = visited ++ new ∧
        s = totalSize + (new.map (sizeOfId store)).sum ∧
        (visited.Nodup → V.Nodup) ∧
        (∀ x ∈ V, RefsGoodAt store chainFuel x V) := by
  intro fuel
  induction fuel with
  | zero =>
    intro queue visited totalSize V s hq hproc h
    cases queue with
    | nil =>
      rw [closureLoop_nil] at h
      obtain ⟨hV, hs⟩ := Prod.mk.injEq .. ▸ Option.some.inj h
      refine ⟨[], by simp [hV.symm], by simp [hs.symm], ?_, ?_⟩
      · intro hv; rw [← hV]; exact hv
      · intro x hx
        rw [← hV] at hx
        have := hproc x hx (List.not_mem_nil x)
        rw [← hV]
        exact this
    | cons x q => simp [closureLoop] at h
  | succ fuel ih =>
    intro queue visited totalSize V s hq hproc h
    cases queue with
    | nil =>
      rw [closureLoop_nil] at h
      obtain ⟨hV, hs⟩ := Prod.mk.injEq .. ▸ Option.some.inj h
      refine ⟨[], by simp [hV.symm], by simp [hs.symm], ?_, ?_⟩
      · intro hv; rw [← hV]; exact hv
      · intro x hx
        rw [← hV] at hx
        have := hproc x hx (List.not_mem_nil x)
        rw [← hV]
        exact this
    | cons x q =>
      have hx : x ∈ visited := hq x (List.mem_cons_self x q)
      unfold closureLoop at h
      cases hobj : getObject store x with
      | none =>
        simp only [hobj] at h
        refine ih q visited totalSize V s
          (fun y hy => hq y (List.mem_cons.mpr (Or.inr hy))) ?_ h
        intro y hy hny
        by_cases hyx : y = x
        · intro obj hobj'
          rw [hyx, hobj] at hobj'
          cases hobj'
        · exact hproc y hy (by simp [hyx, hny])
      | some obj =>
        simp only [hobj] at h
        cases hrefs : getReferences store chainFuel obj with
        | none => rw [hrefs] at h; cases h
        | some refs =>
          obtain ⟨new₁, heq, hmem, hfresh, hnodup₁, hsub⟩ :=
            enqueueRefs_spec store refs q visited totalSize
          simp only [hrefs, heq] at h
          have hd : visited.Disjoint new₁ := fun a ha hb => hfresh a hb ha
          have hq' : ∀ y ∈ q ++ new₁, y ∈ visited ++ new₁ := by
            intro y hy
            rcases List.mem_append.mp hy with h1 | h2
            · exact List.mem_append.mpr (Or.inl (hq y (List.mem_cons.mpr (Or.inr h1))))
            · exact List.mem_append.mpr (Or.inr h2)
          have hproc' : ∀ y ∈ visited ++ new₁, y ∉ q ++ new₁ →
              RefsGoodAt store chainFuel y (visited ++ new₁) := by
            intro y hy hny
            rcases List.mem_append.mp hy with h1 | h2
            · have hnq : y ∉ q := fun hc => hny (List.mem_append.mpr (Or.inl hc))
              by_cases hyx : y = x
              · intro obj' hobj'
                rw [hyx, hobj] at hobj'
                obtain rfl := Option.some.inj hobj'
                exact ⟨refs, hrefs, hmem⟩
              · exact refsGoodAt_mono (fun z hz => List.mem_append.mpr (Or.inl hz))
                  (hproc y h1 (by simp [hyx, hnq]))
            · exact absurd (List.mem_append.mpr (Or.inr h2)) hny
          obtain ⟨new₂, hVeq, hs, hnod, hgood⟩ :=
            ih (q ++ new₁) (visited ++ new₁) (totalSize + (new₁.map (sizeOfId store)).sum)
              V s hq' hproc' h
          refine ⟨new₁ ++ new₂, ?_, ?_, ?_, hgood⟩
          · rw [hVeq, List.append_assoc]
          · rw [hs, List.map_append, List.sum_append, add_assoc]
          · intro hv
            apply hnod
            exact List.nodup_append.mpr ⟨hv, hnodup₁, hd⟩

/-- A successful run of the loop is stable under extra fuel. -/
theorem closureLoop_stable (store : Store) (chainFuel : Nat) :
    ∀ (fuel fuel' : Nat) (queue visited : List ID) (totalSize : Int)
      (r : List ID × Int), fuel ≤ fuel' →
      closureLoop store chainFuel fuel queue visited totalSize = some r →
      closureLoop store chainFuel fuel' queue visited totalSize = some r := by
  intro fuel
  induction fuel with
  | zero =>
    intro fuel' queue visited totalSize r _ h
    cases queue with
    | nil => rw [closureLoop_nil] at h; rw [closureLoop_nil]; exact h
    | cons x q => simp [closureLoop] at h
  | succ fuel ih =>
    intro fuel' queue visited totalSize r hle h
    cases queue with
    | nil => rw [closureLoop_nil] at h; rw [closureLoop_nil]; exact h
    | cons x q =>
      cases fuel' with
      | zero => omega
      | succ fuel'' =>
        unfold closureLoop at h ⊢
        cases hobj : getObject store x with
        | none =>
          simp only [hobj] at h ⊢
          exact ih fuel'' q visited totalSize r (by omega) h
        | some obj =>
          simp only [hobj] at h ⊢
          cases hrefs : getReferences store chainFuel obj with
          | none => rw [hrefs] at h; cases h
          | some refs =>
            rcases henq : enqueueRefs store refs q visited totalSize with ⟨q', v', t'⟩
            simp only [hrefs, henq] at h ⊢
            exact ih fuel'' q' v' t' r (by omega) h

/-- A successful map lookup returns a binding of the list. -/
theorem mapGet_mem {β : Type} :
    ∀ (m : List (ID × β)) (k : ID) (v : β), mapGet m k = some v → (k, v) ∈ m := by
  intro m
  induction m with
  | nil => intro k v h; cases h
  | cons p rest ih =>
    intro k v h
    obtain ⟨k', w⟩ := p
    unfold mapGet at h
    by_cases hk : k' = k
    · rw [if_pos hk] at h
      obtain rfl := Option.some.inj h
      rw [hk]
      exact List.mem_cons.mpr (Or.inl rfl)
    · rw [if_neg hk] at h
      exact List.mem_cons.mpr (Or.inr (ih k v h))

/-- When `getObject` yields an instance, it was found in the instance map. -/
theorem getObject_instanceObj {store : Store} {x : ID} {v : InstanceDump}
    (h : getObject store x = some (HeapObject.instanceObj v)) :
    mapGet store.ObjectIdToInstanceDumpMap x = some v := by
  unfold getObject at h
  cases h1 : mapGet store.ObjectIdToInstanceDumpMap x with
  | some w => simp only [h1] at h; obtain ⟨rfl⟩ := HeapObject.instanceObj.inj (Option.some.inj h); rfl
  | none =>
    simp only [h1] at h
    cases h2 : mapGet store.ObjectIdToObjectArrayDumpMap x with
    | some w => simp only [h2] at h; cases Option.some.inj h
    | none =>
      simp only [h2] at h
      cases h3 : mapGet store.ObjectIdToPrimitiveArrayDumpMap x with
      | some w => simp only [h3] at h; cases Option.some.inj h
      | none => simp only [h3] at h; cases h

/-- When `getObject` yields an object array, it was found in the object-array
map. -/
theorem getObject_objectArrayObj {store : Store} {x : ID} {v : ObjectArrayDump}
    (h : getObject store x = some (HeapObject.objectArrayObj v)) :
    mapGet store.ObjectIdToObjectArrayDumpMap x = some v := by
  unfold getObject at h
  cases h1 : mapGet store.ObjectIdToInstanceDumpMap x with
  | some w => simp only [h1] at h; cases Option.some.inj h
  | none =>
    simp only [h1] at h
    cases h2 : mapGet store.ObjectIdToObjectArrayDumpMap x with
    | some w =>
      simp only [h2] at h
      obtain ⟨rfl⟩ := HeapObject.objectArrayObj.inj (Option.some.inj h)
      rfl
    | none =>
      simp only [h2] at h
      cases h3 : mapGet store.ObjectIdToPrimitiveArrayDumpMap x with
      | some w => simp only [h3] at h; cases Option.some.inj h
      | none => simp only [h3] at h; cases h

/-- All identifiers that can ever be enqueued by the reachability loop: the
reference lists of every instance and the elements of every object array. -/
def allRefIds (store : Store) (chainFuel : Nat) : List ID :=
  (store.ObjectIdToInstanceDumpMap.map
    (fun p => (parseInstanceReferences store chainFuel p.2).getD [])).flatten ++
  (store.ObjectIdToObjectArrayDumpMap.map (fun p => p.2.Elements)).flatten

/-- Every reference of every resolvable object lies in `allRefIds`. -/
theorem refs_mem_allRefIds {store : Store} {chainFuel : Nat} {x : ID}
    {obj : HeapObject} {refs : List ID}
    (hobj : getObject store x = some obj)
    (hrefs : getReferences store chainFuel obj = some refs) :
    ∀ r ∈ refs, r ∈ allRefIds store chainFuel := by
  intro r hr
  cases obj with
  | instanceObj v =>
    have h2 := mapGet_mem _ _ _ (getObject_instanceObj hobj)
    apply List.mem_append.mpr
    left
    rw [List.mem_flatten]
    refine ⟨refs, ?_, hr⟩
    rw [List.mem_map]
    refine ⟨(x, v), h2, ?_⟩
    show (parseInstanceReferences store chainFuel v).getD [] = refs
    rw [show parseInstanceReferences store chainFuel v = some refs from hrefs]
    rfl
  | objectArrayObj v =>
    have h2 := mapGet_mem _ _ _ (getObject_objectArrayObj hobj)
    have hrv : refs = v.Elements := (Option.some.inj hrefs).symm
    apply List.mem_append.mpr
    right
    rw [List.mem_flatten]
    refine ⟨v.Elements, ?_, hrv ▸ hr⟩
    rw [List.mem_map]
    exact ⟨(x, v), h2, rfl⟩
  | primitiveArrayObj v =>
    have : refs = [] := (Option.some.inj hrefs).symm
    rw [this] at hr
    cases hr

/-- The reachability loop terminates: with fuel at least the queue length plus
the number of candidate ids not yet visited, the loop returns. -/
theorem closureLoop_terminates (store : Store) (chainFuel : Nat) (U : Finset ID)
    (hU : ∀ (x : ID) (obj : HeapObject) (refs : List ID),
      getObject store x = some obj → getReferences store chainFuel obj = some refs →
      ∀ r ∈ refs, r ∈ U)
    (hsome : ∀ (x : ID) (obj : HeapObject), getObject store x = some obj →
      (getReferences store chainFuel obj).isSome) :
    ∀ (fuel : Nat) (queue visited : List ID) (totalSize : Int),
      queue.length + (U \ visited.toFinset).card ≤ fuel →
      (closureLoop store chainFuel fuel queue visited totalSize).isSome := by
  intro fuel
  induction fuel with
  | zero =>
    intro queue visited totalSize hm
    have : queue = [] := List.length_eq_zero.mp (by omega)
    subst this
    rw [closureLoop_nil]
    rfl
  | succ fuel ih =>
    intro queue visited totalSize hm
    cases queue with
    | nil => rw [closureLoop_nil]; rfl
    | cons x q =>
      unfold closureLoop
      cases hobj : getObject store x with
      | none =>
        apply ih
        simp only [List.length_cons] at hm
        omega
      | some obj =>
        obtain ⟨refs, hrefs⟩ := Option.isSome_iff_exists.mp (hsome x obj hobj)
        obtain ⟨new, heq, hmem, hfresh, hnodup, hsub⟩ :=
          enqueueRefs_spec store refs q visited totalSize
        simp only [hrefs, heq]
        apply ih
        have hsubU : new.toFinset ⊆ U \ visited.toFinset := by
          intro a ha
          rw [List.mem_toFinset] at ha
          rw [Finset.mem_sdiff]
          refine ⟨hU x obj refs hobj hrefs a (hsub a ha), ?_⟩
          rw [List.mem_toFinset]
          exact hfresh a ha
        have hcardnew : new.toFinset.card = new.length := List.toFinset_card_of_nodup hnodup
        have hle : new.length ≤ (U \ visited.toFinset).card := by
          rw [← hcardnew]
          exact Finset.card_le_card hsubU
        have hsplit : U \ (visited ++ new).toFinset = (U \ visited.toFinset) \ new.toFinset := by
          ext a
          simp only [Finset.mem_sdiff, List.toFinset_append, Finset.mem_union]
          tauto
        have hcard : (U \ (visited ++ new).toFinset).card =
            (U \ visited.toFinset).card - new.length := by
          rw [hsplit, Finset.card_sdiff hsubU, hcardnew]
        rw [hcard]
        simp only [List.length_append, List.length_cons] at hm ⊢
        omega

/-- Claim C3: for every seed set over an immutable store (whose instance class
chains resolve within `chainFuel`, as the diverging Go loop otherwise never
returns), the reachability computation of `CalculateClassSizes` terminates
with some finite fuel even in the presence of object-graph cycles — each
objectId is marked visited at most once (`V.Nodup`) — its result is stable
(any larger fuel, i.e. a re-run, yields the same visited list and sum), and it
is idempotent: re-running the closure seeded with its own visited set returns
exactly the same visited set and the same size sum. -/
theorem closure_idempotent (store : Store) (chainFuel : Nat) (seeds : List ID)
    (hnodup : seeds.Nodup)
    (hres : ∀ p ∈ store.ObjectIdToInstanceDumpMap,
      (parseInstanceReferences store chainFuel p.2).isSome) :
    ∃ (fuel : Nat) (V : List ID) (s : Int),
      closureFrom store chainFuel fuel seeds = some (V, s) ∧
      (∀ fuel', fuel ≤ fuel' → closureFrom store chainFuel fuel' seeds = some (V, s)) ∧
      closureFrom store chainFuel V.length V = some (V, s) ∧
      V.Nodup := by
  have hsome : ∀ (x : ID) (obj : HeapObject), getObject store x = some obj →
      (getReferences store chainFuel obj).isSome := by
    intro x obj hobj
    cases obj with
    | instanceObj v =>
      exact hres (x, v) (mapGet_mem _ _ _ (getObject_instanceObj hobj))
    | objectArrayObj v => rfl
    | primitiveArrayObj v => rfl
  have hUmem : ∀ (x : ID) (obj : HeapObject) (refs : List ID),
      getObject store x = some obj → getReferences store chainFuel obj = some refs →
      ∀ r ∈ refs, r ∈ (allRefIds store chainFuel).toFinset := by
    intro x obj refs h1 h2 r hr
    exact List.mem_toFinset.mpr (refs_mem_allRefIds h1 h2 r hr)
  have hbound : seeds.length + ((allRefIds store chainFuel).toFinset \ seeds.toFinset).card ≤
      seeds.length + (allRefIds store chainFuel).toFinset.card := by
    have := Finset.card_le_card
      (Finset.sdiff_subset :
        (allRefIds store chainFuel).toFinset \ seeds.toFinset ⊆
          (allRefIds store chainFuel).toFinset)
    omega
  have hterm := closureLoop_terminates store chainFuel (allRefIds store chainFuel).toFinset
    hUmem hsome (seeds.length + (allRefIds store chainFuel).toFinset.card) seeds seeds
    ((seeds.map (sizeOfId store)).sum) hbound
  obtain ⟨⟨V, s⟩, hV⟩ := Option.isSome_iff_exists.mp hterm
  have hq0 : ∀ x ∈ seeds, x ∈ seeds := fun x hx => hx
  have hp0 : ∀ x ∈ seeds, x ∉ seeds → RefsGoodAt store chainFuel x seeds :=
    fun x hx hnx => absurd hx hnx
  obtain ⟨new, hVeq, hs, hnod, hgood⟩ :=
    closureLoop_sound store chainFuel _ seeds seeds _ V s hq0 hp0 hV
  have hVnodup : V.Nodup := hnod hnodup
  have hsum : (V.map (sizeOfId store)).sum = s := by
    rw [hVeq, hs, List.map_append, List.sum_append]
  refine ⟨seeds.length + (allRefIds store chainFuel).toFinset.card, V, s, hV, ?_, ?_, hVnodup⟩
  · intro fuel' hf
    exact closureLoop_stable store chainFuel _ fuel' seeds seeds _ (V, s) hf hV
  · show closureLoop store chainFuel V.length V V ((V.map (sizeOfId store)).sum) = some (V, s)
    rw [hsum]
    exact closureLoop_closed store chainFuel V.length V V s (le_refl _)
      (fun x hx => hx) (fun x hx => hgood x hx)

/-- The cyclic two-object-array store of the C3 witness: arrays 1 and 2 each
hold the other as their only element. -/
def c3Store : Store :=
  ⟨[], [], [], [], [(1, ⟨1, 0, 1, 30, [2]⟩), (2, ⟨2, 0, 1, 30, [1]⟩)], []⟩

/-- Witness for `closure_idempotent` on the cyclic store `c3Store`, seeded
with array 1. -/
theorem closure_idempotent_witness :
    ∃ (fuel : Nat) (V : List ID) (s : Int),
      closureFrom c3Store 1 fuel [1] = some (V, s) ∧
      (∀ fuel', fuel ≤ fuel' → closureFrom c3Store 1 fuel' [1] = some (V, s)) ∧
      closureFrom c3Store 1 V.length V = some (V, s) ∧
      V.Nodup :=
  closure_idempotent c3Store 1 [1] (by decide) (by decide)

/-- Embeds `unicode/utf16.Decode` as used by the duplicate-strings helper: a
well-formed surrogate pair combines into one supplementary rune, an unpaired
surrogate becomes U+FFFD, everything else passes through. -/
def utf16Decode : List Nat → List Nat
  | [] => []
  | [r1] => if 0xD800 ≤ r1 ∧ r1 < 0xE000 then [0xFFFD] else [r1]
  | r1 :: r2 :: rest =>
    if 0xD800 ≤ r1 ∧ r1 < 0xDC00 then
      if 0xDC00 ≤ r2 ∧ r2 < 0xE000 then
        (0x10000 + (r1 - 0xD800) * 0x400 + (r2 - 0xDC00)) :: utf16Decode rest
      else 0xFFFD :: utf16Decode (r2 :: rest)
    else if 0xDC00 ≤ r1 ∧ r1 < 0xE000 then 0xFFFD :: utf16Decode (r2 :: rest)
    else r1 :: utf16Decode (r2 :: rest)

/-- UTF-8 encoding of one (valid) rune: the byte content of Go's
`string([]rune)` conversion for the runes `utf16.Decode` produces. -/
def utf8Encode (r : Nat) : List Nat :=
  if r < 0x80 then [r]
  else if r < 0x800 then [0xC0 + r / 0x40, 0x80 + r % 0x40]
  else if r < 0x10000 then [0xE0 + r / 0x1000, 0x80 + r / 0x40 % 0x40, 0x80 + r % 0x40]
  else [0xF0 + r / 0x40000, 0x80 + r / 0x1000 % 0x40, 0x80 + r / 0x40 % 0x40,
        0x80 + r % 0x40]

/-- Big-endian 16-bit code units of a byte list
(`binary.BigEndian.Uint16(data[i:i+2])` for even `i`). -/
def toU16BE : List Nat → List Nat
  | b1 :: b2 :: rest => ((b1 % 256) * 256 + b2 % 256) :: toU16BE rest
  | _ => []

/-- Embeds `decodeCharArray` from `AnalyzeDuplicateStrings` in `array_info.go`: an
odd trailing byte is truncated, the rest is decoded as UTF-16 big-endian;
the result is the byte content of the produced Go string. -/
def decodeCharArray (data : List Nat) : List Nat :=
  ((utf16Decode (toU16BE (if data.length % 2 ≠ 0 then data.dropLast else data))).map
    utf8Encode).flatten

/-- The field scan of `AnalyzeDuplicateStrings`: find the first `object`-typed
field named `value` (field names resolved through `IDtoStringInUTF8`, missing
names being the empty string), accumulating the byte offset of the fields
passed over. -/
def findValueField (store : Store) : List InstanceFieldRecord → Nat → Option Nat
  | [], _ => none
  | field :: rest, offset =>
    if field.type = 2 ∧
        (mapGet store.IDtoStringInUTF8 field.FieldNameStringId).getD "" = "value"
    then some offset
    else findValueField store rest (offset + (BasicType.GetSize field.type).toNat)

/-- The per-instance part of `AnalyzeDuplicateStrings`: `none` when the
instance is skipped (class name not `java.lang.String`, class dump missing,
no `value` field, offset past the payload, `value` not resolving to a stored
primitive array, or a zero-byte backing array), otherwise the decoded content
(UTF-16 big-endian for `char` arrays, raw bytes for the rest). `chainFuel`
bounds the superclass walk as in `collectInstanceFields`. -/
def stringContent (store : Store) (chainFuel : Nat) (inst : InstanceDump) :
    Option (List Nat) :=
  if getNameByClassObjectId store inst.ClassObjectId ≠ "java.lang.String" then none
  else if (mapGet store.ClassObjectIdToClassDumpMap inst.ClassObjectId).isNone then none
  else
    match collectInstanceFields store chainFuel inst.ClassObjectId [] with
    | none => none
    | some allFields =>
      match findValueField store allFields 0 with
      | none => none
      | some offset =>
        if inst.InstanceFieldValues.length < offset + 8 then none
        else
          match mapGet store.ObjectIdToPrimitiveArrayDumpMap
              (toI64 (beNat ((inst.InstanceFieldValues.drop offset).take 8))) with
          | none => none
          | some arr =>
            if arr.Elements.length = 0 then none
            else some (if BasicType.GetName arr.ElementType = "char"
                       then decodeCharArray arr.Elements else arr.Elements)

/-- The frequency-map update of `AnalyzeDuplicateStrings`: increment the
existing group of this content or open a new group with count 1. -/
def bumpCount : List (List Nat × Nat) → List Nat → List (List Nat × Nat)
  | [], content => [(content, 1)]
  | (c, n) :: rest, content =>
    if c = content then (c, n + 1) :: rest else (c, n) :: bumpCount rest content

/-- The grouping pass of `AnalyzeDuplicateStrings`: fold over all instances,
skipping the ones `stringContent` skips and bumping the group of the others. -/
def stringContentCounts (store : Store) (chainFuel : Nat) : List (List Nat × Nat) :=
  store.ObjectIdToInstanceDumpMap.foldl
    (fun freq p =>
      match stringContent store chainFuel p.2 with
      | none => freq
      | some content => bumpCount freq content) []

/-- Embeds `AnalyzeDuplicateStrings` from `array_info.go`, reduced to its semantic
content: the `(content, count)` groups with count above 1, sorted by count
descending (`sort.Slice` with a greater-than comparator). -/
def AnalyzeDuplicateStrings (store : Store) (chainFuel : Nat) : List (List Nat × Nat) :=
  ((stringContentCounts store chainFuel).filter (fun g => decide (1 < g.2))).mergeSort
    (fun a b => decide (b.2 ≤ a.2))

/-- The number of store instances whose decoded string content is `content`. -/
def countOfContent (store : Store) (chainFuel : Nat) (content : List Nat) : Nat :=
  (store.ObjectIdToInstanceDumpMap.filter
    (fun p => decide (stringContent store chainFuel p.2 = some content))).length

/-- Association lookup in the frequency list. -/
def lookCount : List (List Nat × Nat) → List Nat → Option Nat
  | [], _ => none
  | (c, n) :: rest, content => if c = content then some n else lookCount rest content

/-- Bumping a content increments its looked-up count (absent counts as 0). -/
theorem lookCount_bumpCount_self :
    ∀ (freq : List (List Nat × Nat)) (content : List Nat),
      lookCount (bumpCount freq content) content =
        some ((lookCount freq content).getD 0 + 1) := by
  intro freq
  induction freq with
  | nil => intro content; simp [bumpCount, lookCount]
  | cons g rest ih =>
    intro content
    obtain ⟨c, n⟩ := g
    unfold bumpCount
    by_cases hc : c = content
    · rw [if_pos hc]
      unfold lookCount
      rw [if_pos hc, if_pos hc]
      rfl
    · rw [if_neg hc]
      unfold lookCount
      rw [if_neg hc, if_neg hc]
      exact ih content

/-- Bumping one content leaves every other content's count unchanged. -/
theorem lookCount_bumpCount_other :
    ∀ (freq : List (List Nat × Nat)) (content other : List Nat), other ≠ content →
      lookCount (bumpCount freq content) other = lookCount freq other := by
  intro freq
  induction freq with
  | nil =>
    intro content other hne
    unfold bumpCount lookCount
    rw [if_neg (fun hc => hne hc.symm)]
    rfl
  | cons g rest ih =>
    intro content other hne
    obtain ⟨c, n⟩ := g
    unfold bumpCount
    by_cases hc : c = content
    · rw [if_pos hc]
      unfold lookCount
      rw [if_neg (by rw [hc]; exact fun hco => hne hco.symm),
          if_neg (by rw [hc]; exact fun hco => hne hco.symm)]
    · rw [if_neg hc]
      unfold lookCount
      by_cases hco : c = other
      · rw [if_pos hco, if_pos hco]
      · rw [if_neg hco, if_neg hco]
        exact ih content other hne

/-- A key of the bumped list is an old key or the bumped content. -/
theorem bumpCount_keys_mem :
    ∀ (freq : List (List Nat × Nat)) (content x : List Nat),
      x ∈ (bumpCount freq content).map Prod.fst →
      x ∈ freq.map Prod.fst ∨ x = content := by
  intro freq
  induction freq with
  | nil =>
    intro content x hx
    simp [bumpCount] at hx
    exact Or.inr hx
  | cons g rest ih =>
    intro content x hx
    obtain ⟨c, n⟩ := g
    unfold bumpCount at hx
    by_cases hc : c = content
    · rw [if_pos hc] at hx
      simp only [List.map_cons, List.mem_cons] at hx ⊢
      tauto
    · rw [if_neg hc] at hx
      simp only [List.map_cons, List.mem_cons] at hx ⊢
      rcases hx with h1 | h2
      · tauto
      · rcases ih content x h2 with h3 | h4
        · tauto
        · tauto

/-- Bumping preserves distinctness of the group keys. -/
theorem bumpCount_keys_nodup :
    ∀ (freq : List (List Nat × Nat)) (content : List Nat),
      (freq.map Prod.fst).Nodup → ((bumpCount freq content).map Prod.fst).Nodup := by
  intro freq
  induction freq with
  | nil => intro content _; simp [bumpCount]
  | cons g rest ih =>
    intro content hnd
    obtain ⟨c, n⟩ := g
    simp only [List.map_cons, List.nodup_cons] at hnd
    unfold bumpCount
    by_cases hc : c = content
    · rw [if_pos hc]
      simp only [List.map_cons, List.nodup_cons]
      exact hnd
    · rw [if_neg hc]
      simp only [List.map_cons, List.nodup_cons]
      refine ⟨?_, ih content hnd.2⟩
      intro hmem
      rcases bumpCount_keys_mem rest content c hmem with h1 | h2
      · exact hnd.1 h1
      · exact hc h2

/-- With distinct keys, membership in an association list is lookup. -/
theorem mem_iff_lookCount :
    ∀ (freq : List (List Nat × Nat)), (freq.map Prod.fst).Nodup →
      ∀ (c : List Nat) (n : Nat), (c, n) ∈ freq ↔ lookCount freq c = some n := by
  intro freq
  induction freq with
  | nil => intro _ c n; simp [lookCount]
  | cons g rest ih =>
    intro hnd c n
    obtain ⟨c0, n0⟩ := g
    simp only [List.map_cons, List.nodup_cons] at hnd
    unfold lookCount
    constructor
    · intro hmem
      rcases List.mem_cons.mp hmem with h1 | h2
      · obtain ⟨hc, hn⟩ := Prod.mk.injEq .. ▸ h1
        rw [if_pos (by rw [hc])]
        rw [hn]
      · have hc0 : c0 ≠ c := by
          intro he
          apply hnd.1
          rw [he]
          exact List.mem_map.mpr ⟨(c, n), h2, rfl⟩
        rw [if_neg hc0]
        exact (ih hnd.2 c n).mp h2
    · intro hlk
      by_cases hc0 : c0 = c
      · rw [if_pos hc0] at hlk
        obtain rfl := Option.some.inj hlk
        rw [hc0]
        exact List.mem_cons.mpr (Or.inl rfl)
      · rw [if_neg hc0] at hlk
        exact List.mem_cons.mpr (Or.inr ((ih hnd.2 c n).mpr hlk))

/-- The grouping fold counts exactly the instances whose content decodes to
each group key (over whatever frequency list it starts from). -/
theorem counts_fold_getD (store : Store) (chainFuel : Nat) :
    ∀ (l : List (ID × InstanceDump)) (freq : List (List Nat × Nat)) (c : List Nat),
      (lookCount (l.foldl (fun freq p =>
        match stringContent store chainFuel p.2 with
        | none => freq
        | some content => bumpCount freq content) freq) c).getD 0 =
      (lookCount freq c).getD 0 +
        (l.filter (fun p => decide (stringContent store chainFuel p.2 = some c))).length := by
  intro l
  induction l with
  | nil => intro freq c; simp
  | cons p rest ih =>
    intro freq c
    rw [List.foldl_cons, List.filter_cons]
    cases hsc : stringContent store chainFuel p.2 with
    | none =>
      rw [if_neg (by simp [hsc])]
      simp only [hsc]
      exact ih freq c
    | some c0 =>
      simp only [hsc]
      by_cases hc : c0 = c
      · subst hc
        rw [if_pos (by simp [hsc])]
        rw [ih (bumpCount freq c0) c0]
        rw [lookCount_bumpCount_self]
        simp only [Option.getD_some, List.length_cons]
        omega
      · rw [if_neg (by simp [hsc, hc])]
        rw [ih (bumpCount freq c0) c]
        rw [lookCount_bumpCount_other freq c0 c (fun he => hc he.symm)]
    
/-- The grouping fold keeps the group keys distinct. -/
theorem counts_fold_keys_nodup (store : Store) (chainFuel : Nat) :
    ∀ (l : List (ID × InstanceDump)) (freq : List (List Nat × Nat)),
      (freq.map Prod.fst).Nodup →
      ((l.foldl (fun freq p =>
        match stringContent store chainFuel p.2 with
        | none => freq
        | some content => bumpCount freq content) freq).map Prod.fst).Nodup := by
  intro l
  induction l with
  | nil => intro freq h; exact h
  | cons p rest ih =>
    intro freq h
    rw [List.foldl_cons]
    cases hsc : stringContent store chainFuel p.2 with
    | none => simp only [hsc]; exact ih freq h
    | some c0 => simp only [hsc]; exact ih (bumpCount freq c0) (bumpCount_keys_nodup freq c0 h)

/-- The group keys of the frequency pass are distinct. -/
theorem stringContentCounts_keys_nodup (store : Store) (chainFuel : Nat) :
    ((stringContentCounts store chainFuel).map Prod.fst).Nodup :=
  counts_fold_keys_nodup store chainFuel store.ObjectIdToInstanceDumpMap [] (by simp)

/-- The frequency pass assigns every content its instance count. -/
theorem lookCount_counts_getD (store : Store) (chainFuel : Nat) (c : List Nat) :
    (lookCount (stringContentCounts store chainFuel) c).getD 0 =
      countOfContent store chainFuel c := by
  unfold stringContentCounts countOfContent
  rw [counts_fold_getD]
  simp [lookCount]

/-- Membership in the `AnalyzeDuplicateStrings` output characterized: a group
`(content, n)` is emitted exactly when `n` is the number of instances decoding
to `content` and `n ≥ 2`. -/
theorem mem_analyzeDuplicateStrings_iff (store : Store) (chainFuel : Nat)
    (c : List Nat) (n : Nat) :
    (c, n) ∈ AnalyzeDuplicateStrings store chainFuel ↔
      2 ≤ n ∧ countOfContent store chainFuel c = n := by
  unfold AnalyzeDuplicateStrings
  rw [List.mem_mergeSort, List.mem_filter]
  constructor
  · rintro ⟨hmem, hcnt⟩
    have hlk := (mem_iff_lookCount _ (stringContentCounts_keys_nodup store chainFuel)
      c n).mp hmem
    have he := lookCount_counts_getD store chainFuel c
    rw [hlk] at he
    simp only [Option.getD_some] at he
    simp only [decide_eq_true_eq] at hcnt
    exact ⟨by omega, he.symm⟩
  · rintro ⟨hn, hcount⟩
    have hlk : lookCount (stringContentCounts store chainFuel) c = some n := by
      cases hl : lookCount (stringContentCounts store chainFuel) c with
      | none =>
        have he := lookCount_counts_getD store chainFuel c
        rw [hl] at he
        simp only [Option.getD_none] at he
        omega
      | some m =>
        have he := lookCount_counts_getD store chainFuel c
        rw [hl] at he
        simp only [Option.getD_some] at he
        rw [he, hcount]
    refine ⟨(mem_iff_lookCount _ (stringContentCounts_keys_nodup store chainFuel)
      c n).mpr hlk, ?_⟩
    simp only [decide_eq_true_eq]
    omega

/-- Claim C4: `AnalyzeDuplicateStrings` groups the store's `java.lang.String`
instances by decoded backing-array content (UTF-16 big-endian with odd
trailing byte truncated for `char` arrays, raw bytes otherwise — the
`stringContent` pipeline), emits exactly the groups whose count is at least 2,
sorted by count descending, and its group keys are distinct — so any two
instances with identical decoded content are counted in the same single
group. -/
theorem analyzeDuplicateStrings_groups (store : Store) (chainFuel : Nat) :
    (AnalyzeDuplicateStrings store chainFuel).Pairwise (fun a b => b.2 ≤ a.2) ∧
    (∀ (c : List Nat) (n : Nat),
      (c, n) ∈ AnalyzeDuplicateStrings store chainFuel ↔
        2 ≤ n ∧ countOfContent store chainFuel c = n) ∧
    ((AnalyzeDuplicateStrings store chainFuel).map Prod.fst).Nodup := by
  refine ⟨?_, mem_analyzeDuplicateStrings_iff store chainFuel, ?_⟩
  · have htrans : ∀ a b c : List Nat × Nat,
        decide (b.2 ≤ a.2) = true → decide (c.2 ≤ b.2) = true →
        decide (c.2 ≤ a.2) = true := by
      intro a b c h1 h2
      simp only [decide_eq_true_eq] at h1 h2 ⊢
      omega
    have htotal : ∀ a b : List Nat × Nat,
        (decide (b.2 ≤ a.2) || decide (a.2 ≤ b.2)) = true := by
      intro a b
      rw [Bool.or_eq_true]
      simp only [decide_eq_true_eq]
      omega
    have h := List.sorted_mergeSort htrans htotal
      ((stringContentCounts store chainFuel).filter (fun g => decide (1 < g.2)))
    exact h.imp (fun hab => by simpa using hab)
  · have hperm := List.mergeSort_perm
      ((stringContentCounts store chainFuel).filter (fun g => decide (1 < g.2)))
      (fun a b => decide (b.2 ≤ a.2))
    have hsubl : (((stringContentCounts store chainFuel).filter
        (fun g => decide (1 < g.2))).map Prod.fst).Nodup :=
      (stringContentCounts_keys_nodup store chainFuel).sublist
        ((List.filter_sublist _).map Prod.fst)
    exact ((hperm.map Prod.fst).nodup_iff).mpr hsubl

/-- Inversion of a successful `stringContent`: the value field was found, in
bounds, resolving to a stored primitive array with at least one byte, and the
content is its decoding. -/
theorem stringContent_some_inv {store : Store} {chainFuel : Nat} {inst : InstanceDump}
    {content : List Nat} (h : stringContent store chainFuel inst = some content) :
    ∃ (fields : List InstanceFieldRecord) (offset : Nat) (arr : PrimitiveArrayDump),
      collectInstanceFields store chainFuel inst.ClassObjectId [] = some fields ∧
      findValueField store fields 0 = some offset ∧
      offset + 8 ≤ inst.InstanceFieldValues.length ∧
      mapGet store.ObjectIdToPrimitiveArrayDumpMap
        (toI64 (beNat ((inst.InstanceFieldValues.drop offset).take 8))) = some arr ∧
      arr.Elements ≠ [] ∧
      content = (if BasicType.GetName arr.ElementType = "char"
                 then decodeCharArray arr.Elements else arr.Elements) := by
  unfold stringContent at h
  split at h
  · exact Option.noConfusion h
  · split at h
    · exact Option.noConfusion h
    · split at h
      · exact Option.noConfusion h
      · rename_i fields h3
        split at h
        · exact Option.noConfusion h
        · rename_i offset h4
          split at h
          · exact Option.noConfusion h
          · rename_i h5
            split at h
            · exact Option.noConfusion h
            · rename_i arr h6
              split at h
              · exact Option.noConfusion h
              · rename_i h7
                refine ⟨fields, offset, arr, h3, h4, by omega, h6, ?_,
                  (Option.some.inj h).symm⟩
                intro hnil
                apply h7
                rw [hnil]
                rfl

/-- UTF-8 encoding of a rune is never empty. -/
theorem utf8Encode_ne_nil (r : Nat) : utf8Encode r ≠ [] := by
  unfold utf8Encode
  repeat' split
  all_goals simp

/-- UTF-16 decoding of a nonempty code-unit list is nonempty. -/
theorem utf16Decode_ne_nil : ∀ l : List Nat, l ≠ [] → utf16Decode l ≠ [] := by
  intro l hl
  match l with
  | [] => exact absurd rfl hl
  | [r1] =>
    unfold utf16Decode
    split <;> simp
  | r1 :: r2 :: rest =>
    unfold utf16Decode
    repeat' split
    all_goals simp

/-- Decoding an even-length, nonempty char array yields nonempty content. -/
theorem decodeCharArray_ne_nil (data : List Nat) (heven : data.length % 2 = 0)
    (hne : data ≠ []) : decodeCharArray data ≠ [] := by
  unfold decodeCharArray
  rw [if_neg (by omega)]
  match data, heven, hne with
  | [], _, hne => exact absurd rfl hne
  | [b], heven, _ => simp at heven
  | b1 :: b2 :: rest, _, _ =>
    have hu : toU16BE (b1 :: b2 :: rest) = ((b1 % 256) * 256 + b2 % 256) :: toU16BE rest :=
      rfl
    rw [hu]
    have hdec := utf16Decode_ne_nil (((b1 % 256) * 256 + b2 % 256) :: toU16BE rest)
      (by simp)
    cases hd : utf16Decode (((b1 % 256) * 256 + b2 % 256) :: toU16BE rest) with
    | nil => exact absurd hd hdec
    | cons c cs =>
      rw [List.map_cons, List.flatten_cons]
      cases he : utf8Encode c with
      | nil => exact absurd he (utf8Encode_ne_nil c)
      | cons x xs => simp

/-- The hand-made store of the C10 counterexample: two `java.lang.String`
instances whose `value` fields resolve to one-byte `char` arrays — nonempty
backing arrays whose odd byte is truncated, so both decode to the empty
string. -/
def c10Store : Store :=
  ⟨[(50, "java.lang.String"), (51, "value")], [(16, 50)],
   [(16, ⟨16, 0, 0, 0, 0, 0, 0, 0, 8, [], [], [⟨51, 2⟩]⟩)],
   [(1, ⟨1, 0, 16, 8, [0, 0, 0, 0, 0, 0, 0, 100]⟩),
    (2, ⟨2, 0, 16, 8, [0, 0, 0, 0, 0, 0, 0, 101]⟩)],
   [],
   [(100, ⟨100, 0, 1, 5, [65]⟩), (101, ⟨101, 0, 1, 5, [66]⟩)]⟩

/-- Claim C10, counterexample: the empty string can appear in a duplicate
group — on `c10Store` the two String instances are backed by nonempty (hence
not skipped) one-byte char arrays that both decode to the empty content, so
`AnalyzeDuplicateStrings` emits the group `("", 2)`. -/
theorem analyzeDuplicateStrings_empty_content_counterexample :
    (([] : List Nat), 2) ∈ AnalyzeDuplicateStrings c10Store 1 := by
  unfold AnalyzeDuplicateStrings
  rw [List.mem_mergeSort]
  decide

/-- Claim C10, amended: `AnalyzeDuplicateStrings` does skip every String
instance whose `value` field does not resolve to a primitive array present in
the store or whose backing array has zero bytes (every non-skipped instance
resolves to a present, nonempty array); and the empty string never appears in
any group provided every `char`-typed primitive array in the store has even
byte length — as every decoder-produced array does — since only an odd-length
char array (truncated to nothing) can decode to empty content. -/
theorem analyzeDuplicateStrings_skip_amended (store : Store) (chainFuel : Nat) :
    (∀ inst : InstanceDump, stringContent store chainFuel inst = none ∨
      ∃ (fields : List InstanceFieldRecord) (offset : Nat) (arr : PrimitiveArrayDump),
        collectInstanceFields store chainFuel inst.ClassObjectId [] = some fields ∧
        findValueField store fields 0 = some offset ∧
        offset + 8 ≤ inst.InstanceFieldValues.length ∧
        mapGet store.ObjectIdToPrimitiveArrayDumpMap
          (toI64 (beNat ((inst.InstanceFieldValues.drop offset).take 8))) = some arr ∧
        arr.Elements ≠ []) ∧
    ((∀ p ∈ store.ObjectIdToPrimitiveArrayDumpMap,
        BasicType.GetName p.2.ElementType = "char" → p.2.Elements.length % 2 = 0) →
      ∀ n : Nat, (([] : List Nat), n) ∉ AnalyzeDuplicateStrings store chainFuel) := by
  constructor
  · intro inst
    cases hsc : stringContent store chainFuel inst with
    | none => exact Or.inl rfl
    | some content =>
      obtain ⟨fields, offset, arr, ha, hb, hc, hd, he, _⟩ := stringContent_some_inv hsc
      exact Or.inr ⟨fields, offset, arr, ha, hb, hc, hd, he⟩
  · intro heven n hmem
    have hiff := mem_analyzeDuplicateStrings_iff store chainFuel [] n
    obtain ⟨hn, hcount⟩ := hiff.mp hmem
    have hpos : 0 < countOfContent store chainFuel [] := by omega
    unfold countOfContent at hpos
    rw [List.length_pos] at hpos
    obtain ⟨p, hp⟩ := List.exists_mem_of_ne_nil _ hpos
    obtain ⟨hpin, hpc⟩ := List.mem_filter.mp hp
    have hsc : stringContent store chainFuel p.2 = some [] := by
      simpa using hpc
    obtain ⟨fields, offset, arr, _, _, _, hd, he, hcont⟩ := stringContent_some_inv hsc
    by_cases hchar : BasicType.GetName arr.ElementType = "char"
    · rw [if_pos hchar] at hcont
      have hmem2 := mapGet_mem _ _ _ hd
      have hev := heven _ hmem2 hchar
      exact decodeCharArray_ne_nil arr.Elements hev he hcont.symm
    · rw [if_neg hchar] at hcont
      exact he hcont.symm

/-- The well-formed duplicate-strings store: two String instances backed by
even-length char arrays both encoding `hi` in UTF-16 big-endian. -/
def c4Store : Store :=
  ⟨[(50, "java.lang.String"), (51, "value")], [(16, 50)],
   [(16, ⟨16, 0, 0, 0, 0, 0, 0, 0, 8, [], [], [⟨51, 2⟩]⟩)],
   [(1, ⟨1, 0, 16, 8, [0, 0, 0, 0, 0, 0, 0, 100]⟩),
    (2, ⟨2, 0, 16, 8, [0, 0, 0, 0, 0, 0, 0, 101]⟩)],
   [],
   [(100, ⟨100, 0, 2, 5, [0, 104, 0, 105]⟩), (101, ⟨101, 0, 2, 5, [0, 104, 0, 105]⟩)]⟩

/-- Witness for `analyzeDuplicateStrings_skip_amended` on `c4Store`, whose
char arrays all have even length. -/
theorem analyzeDuplicateStrings_skip_amended_witness :
    (stringContent c4Store 1 ⟨9, 0, 9, 0, []⟩ = none ∨
      ∃ (fields : List InstanceFieldRecord) (offset : Nat) (arr : PrimitiveArrayDump),
        collectInstanceFields c4Store 1 (9 : Int) [] = some fields ∧
        findValueField c4Store fields 0 = some offset ∧
        offset + 8 ≤ ([] : List Nat).length ∧
        mapGet c4Store.ObjectIdToPrimitiveArrayDumpMap
          (toI64 (beNat ((([] : List Nat).drop offset).take 8))) = some arr ∧
        arr.Elements ≠ []) ∧
    (([] : List Nat), 2) ∉ AnalyzeDuplicateStrings c4Store 1 :=
  ⟨(analyzeDuplicateStrings_skip_amended c4Store 1).1 ⟨9, 0, 9, 0, []⟩,
   (analyzeDuplicateStrings_skip_amended c4Store 1).2 (by decide) 2⟩

/-- Witness for `analyzeDuplicateStrings_groups` on `c4Store`: the group of
the UTF-8 content `hi` holds exactly when both instances decode to it. -/
theorem analyzeDuplicateStrings_groups_witness :
    ([104, 105], 2) ∈ AnalyzeDuplicateStrings c4Store 1 ↔
      2 ≤ 2 ∧ countOfContent c4Store 1 [104, 105] = 2 :=
  (analyzeDuplicateStrings_groups c4Store 1).2.1 [104, 105] 2
